import Mathlib

/-
Verification of `rlax/_src/exploration.py`.

The file shallowly embeds the module's exploration primitives:

* `add_gaussian_noise` (source lines 37-55);
* the episodic-memory intrinsic-reward computation
  `episodic_memory_intrinsic_rewards` (source lines 147-279) with its
  `IntrinsicRewardState`.

Modelling conventions:

* Floating-point scalars are modelled as exact rationals (`ℚ`); the single
  square root of the reward stage is modelled in `ℝ`.
* The IEEE `inf` sentinel used to fill the fresh memory (`jnp.inf`, line 216)
  is modelled by an explicit infinity element (`QInf.inf`); arithmetic that
  would propagate a non-finite value in floats is modelled as the error
  outcome of the pipeline.
* Dense arrays are a shape together with their row-major data (`Arr`), so
  rank mismatches are representable; the memory buffer, which the module
  itself always keeps rank-2, is kept as a list of rows.
* The KNN collaborator `rlax._src.episodic_memory.knn_query` is not among
  the sources; it is modelled from the spec (see `knn_query` below).
* `jax.random` is an external collaborator; random draws are abstracted as
  explicit inputs.
-/

/-- Extended rationals with an infinity element, modelling the IEEE `inf`
sentinel that fills the unused episodic-memory slots (`jnp.inf`, line 216). -/
inductive QInf where
  | inf : QInf
  | val (x : ℚ) : QInf
deriving DecidableEq

/-- Addition on `QInf`: infinity is absorbing, as for IEEE `inf` plus a
finite float. -/
def QInf.add : QInf → QInf → QInf
  | QInf.inf, _ => QInf.inf
  | QInf.val _, QInf.inf => QInf.inf
  | QInf.val a, QInf.val b => QInf.val (a + b)

/-- Sum of a list of `QInf` values. -/
def QInf.sum (l : List QInf) : QInf := l.foldr QInf.add (QInf.val 0)

/-- Boolean order on `QInf` used to rank squared distances; infinity ranks
after every finite value, so sentinel slots are picked last. -/
def QInf.leb : QInf → QInf → Bool
  | QInf.inf, QInf.inf => true
  | QInf.inf, QInf.val _ => false
  | QInf.val _, QInf.inf => true
  | QInf.val a, QInf.val b => decide (a ≤ b)

/-- Nonnegativity on `QInf` (infinity counts as nonnegative). -/
def QInf.nonneg : QInf → Prop
  | QInf.inf => True
  | QInf.val x => 0 ≤ x

/-- Squared difference `(a - b)**2` between a memory entry and a query entry;
infinite if the memory entry is the sentinel (as for float `inf`). -/
def sqDiff (a : QInf) (b : ℚ) : QInf :=
  match a with
  | QInf.inf => QInf.inf
  | QInf.val x => QInf.val ((x - b) * (x - b))

/-- Squared Euclidean distance between a memory row and a query embedding. -/
def rowSqDist (row : List QInf) (q : List ℚ) : QInf :=
  QInf.sum (List.zipWith sqDiff row q)

/-- Insertion into a list sorted ascending by `QInf.leb`. -/
def insertSorted (x : QInf) : List QInf → List QInf
  | [] => [x]
  | y :: ys => if QInf.leb x y then x :: y :: ys else y :: insertSorted x ys

/-- Insertion sort of distances, ascending by `QInf.leb`. -/
def sortQ (l : List QInf) : List QInf := l.foldr insertSorted []

/-- Modelled from the spec: the KNN collaborator
`rlax._src.episodic_memory.knn_query` is declared a black box by the spec and
its code is not among the sources.  Per the spec's external-interface
contract, given the memory and one query it returns "the K squared distances
to its nearest neighbors in the C-row memory (order unspecified, completeness
guaranteed — always returns exactly K results per query even if memory is
smaller than K, padding with the sentinel 'infinite distance' value in that
degenerate case)".  Here the K smallest squared distances are taken in
ascending order. -/
def knn_query (memory : List (List QInf)) (q : List ℚ) (num_neighbors : ℕ) :
    List QInf :=
  (sortQ (memory.map (fun row => rowSqDist row q)) ++
    List.replicate num_neighbors QInf.inf).take num_neighbors

/-- Finite values of a row of distances; `none` when any entry is the
infinite sentinel. -/
def finiteRow? : List QInf → Option (List ℚ)
  | [] => some []
  | QInf.inf :: _ => none
  | QInf.val x :: t => (finiteRow? t).map (fun xs => x :: xs)

/-- Finite values of a matrix of distances; `none` when any entry is the
infinite sentinel. -/
def finiteRows? : List (List QInf) → Option (List (List ℚ))
  | [] => some []
  | r :: t =>
      match finiteRow? r with
      | none => none
      | some xs => (finiteRows? t).map (fun ys => xs :: ys)

/-- Total sum of a matrix of distances, `jnp.sum(nn_distances_sq)`
(line 242). -/
def sumAll (dists : List (List ℚ)) : ℚ := (dists.map (fun r => r.sum)).sum

/-- Dense numeric array: a shape together with its row-major data. -/
structure Arr where
  shape : List ℕ
  data : List ℚ
deriving DecidableEq

/-- Rows of a rank-2 array of shape `[M, D]` stored in row-major order. -/
def toRows (M D : ℕ) (data : List ℚ) : List (List ℚ) :=
  (List.range M).map (fun i => (data.drop (i * D)).take D)

/-- The state threaded between calls (`IntrinsicRewardState`, lines 147-152),
with the source's default values. -/
structure IntrinsicRewardState where
  memory : List (List QInf)
  next_memory_index : ℕ := 0
  distance_sum : ℚ := 0
  distance_count : ℕ := 0
deriving DecidableEq

/-- Fresh memory (lines 214-221): a `jnp.inf`-filled buffer of shape
`[max_memory_size, D]` whose first `num_neighbors` rows are overwritten with
zeros. -/
def initMemory (max_memory_size num_neighbors D : ℕ) : List (List QInf) :=
  (List.range max_memory_size).map (fun i =>
    if i < num_neighbors then List.replicate D (QInf.val 0)
    else List.replicate D QInf.inf)

/-- The `IntrinsicRewardState` built when no prior state is supplied
(lines 214-221): fresh memory and default zero fields. -/
def freshState (max_memory_size num_neighbors D : ℕ) : IntrinsicRewardState :=
  ⟨initMemory max_memory_size num_neighbors D, 0, 0, 0⟩

/-- Lines 213-224: construct a fresh state when none is supplied, otherwise
check that the supplied state's memory has shape `[max_memory_size, D]`
(`chex.assert_shape`, lines 223-224). -/
def validateState (state : Option IntrinsicRewardState)
    (num_neighbors D max_memory_size : ℕ) : Except String IntrinsicRewardState :=
  match state with
  | none => Except.ok (freshState max_memory_size num_neighbors D)
  | some s =>
      if s.memory.length = max_memory_size ∧ ∀ r ∈ s.memory, r.length = D
      then Except.ok s
      else Except.error
        "intrinsic_reward_state.memory does not have shape [max_memory_size, D]"

/-- Ring-buffer insertion (lines 232-236): the batch rows are written at
positions `(start + j) % memory.length`; with duplicate target indices the
later write wins. -/
def insertRows : List (List QInf) → ℕ → List (List ℚ) → List (List QInf)
  | mem, _, [] => mem
  | mem, j, r :: rs => insertRows (mem.set (j % mem.length) (r.map QInf.val)) (j + 1) rs

/-- Lines 250-257: the distance rate `d / (mean_distance + constant)`,
clipped at zero after subtracting `cluster_distance`, then the kernel
`epsilon / (rate + epsilon)`. -/
def kernelValue (mean_distance constant epsilon cluster_distance d : ℚ) : ℚ :=
  epsilon / (max (d / (mean_distance + constant) - cluster_distance) 0 + epsilon)

/-- Line 261 (inner sum): per-embedding sum of kernel values over its
`num_neighbors` nearest-neighbor distances. -/
def kernelSumRow (mean_distance constant epsilon cluster_distance : ℚ)
    (row : List ℚ) : ℚ :=
  (row.map (kernelValue mean_distance constant epsilon cluster_distance)).sum

/-- Lines 228-279 without the final square-root stage: KNN against the
pre-insertion memory, ring-buffer insertion, running-statistics update, and
the per-embedding kernel sums computed with the post-update running mean.
A selected nearest-neighbor distance that is the infinite sentinel (which the
float code would propagate as `inf`/`NaN`) is modelled as an error outcome.
The returned `next_memory_index` is `start_index + (M % max_memory_size)`,
exactly as the source computes it (Python `%` binds tighter than `+` on
line 277). -/
def runPipeline (s : IntrinsicRewardState) (rows : List (List ℚ))
    (M num_neighbors : ℕ) (constant epsilon cluster_distance : ℚ)
    (max_memory_size : ℕ) : Except String (List ℚ × IntrinsicRewardState) :=
  match finiteRows? (rows.map (fun q => knn_query s.memory q num_neighbors)) with
  | none => Except.error "nonfinite nearest-neighbor distance"
  | some dists =>
      Except.ok
        (dists.map (kernelSumRow
            ((s.distance_sum + sumAll dists) /
              ((s.distance_count + (dists.map List.length).sum : ℕ) : ℚ))
            constant epsilon cluster_distance),
         ⟨insertRows s.memory (s.next_memory_index % s.memory.length) rows,
          s.next_memory_index % s.memory.length + M % max_memory_size,
          s.distance_sum + sumAll dists,
          s.distance_count + (dists.map List.length).sum⟩)

/-- Computable core of `episodic_memory_intrinsic_rewards` (lines 213-279):
everything except the final square-root/reward stage, which lives in
`rewardOfKernelSum`.  The shape failures (the `chex` assertions of the source
and the rank-2 query requirement of the spec-modelled `knn_query`) are the
error outcomes. -/
def episodicCore (embeddings : Arr) (num_neighbors : ℕ)
    (intrinsic_reward_state : Option IntrinsicRewardState)
    (constant epsilon cluster_distance : ℚ) (max_memory_size : ℕ) :
    Except String (List ℚ × IntrinsicRewardState) :=
  match embeddings.shape with
  | [M, D] =>
      match validateState intrinsic_reward_state num_neighbors D max_memory_size with
      | Except.error e => Except.error e
      | Except.ok s =>
          runPipeline s (toRows M D embeddings.data) M num_neighbors constant
            epsilon cluster_distance max_memory_size
  | [] => Except.error "embeddings.shape[-1] is out of range for a rank-0 array"
  | _ => Except.error "knn_query requires rank-2 query embeddings"

/-- Line 261 (outer part): per-embedding similarity
`sqrt(kernel sum) + constant`. -/
noncomputable def similarityOf (constant ksum : ℚ) : ℝ :=
  Real.sqrt (ksum : ℝ) + (constant : ℝ)

/-- Lines 263-273: reward `1 / similarity`, zeroed when
`similarity > max_similarity`, then scaled by `reward_scale`. -/
noncomputable def rewardOfKernelSum (constant max_similarity reward_scale ksum : ℚ) : ℝ :=
  (if (max_similarity : ℝ) < similarityOf constant ksum then 0
   else 1 / similarityOf constant ksum) * (reward_scale : ℝ)

/-- `episodic_memory_intrinsic_rewards` (lines 155-279): the computable core
followed by the square-root reward stage applied to each kernel sum. -/
noncomputable def episodic_memory_intrinsic_rewards (embeddings : Arr)
    (num_neighbors : ℕ) (reward_scale : ℚ)
    (intrinsic_reward_state : Option IntrinsicRewardState)
    (constant epsilon cluster_distance max_similarity : ℚ)
    (max_memory_size : ℕ) : Except String (List ℝ × IntrinsicRewardState) :=
  Except.map
    (fun p => (p.1.map (rewardOfKernelSum constant max_similarity reward_scale), p.2))
    (episodicCore embeddings num_neighbors intrinsic_reward_state constant
      epsilon cluster_distance max_memory_size)

/-- Lines 37-55: `add_gaussian_noise`.  The standard-normal draw
`jax.random.normal(key, shape=action.shape)` is abstracted as the input
`normal_sample` (the random-number source is an external collaborator per the
spec); the noise is the draw scaled by `stddev`, added to the action. -/
def add_gaussian_noise (normal_sample action : List ℚ) (stddev : ℚ) : List ℚ :=
  List.zipWith (fun a n => a + n) action (normal_sample.map (fun z => z * stddev))

/-- Squared differences are nonnegative. -/
theorem sqDiff_nonneg (a : QInf) (b : ℚ) : QInf.nonneg (sqDiff a b) := by
  cases a with
  | inf => simp [sqDiff, QInf.nonneg]
  | val x => simpa [sqDiff, QInf.nonneg] using mul_self_nonneg (x - b)

/-- Addition preserves nonnegativity on `QInf`. -/
theorem QInf.nonneg_add {a b : QInf} (ha : QInf.nonneg a) (hb : QInf.nonneg b) :
    QInf.nonneg (QInf.add a b) := by
  cases a with
  | inf => simp [QInf.add, QInf.nonneg]
  | val x =>
      cases b with
      | inf => simp [QInf.add, QInf.nonneg]
      | val y =>
          simp only [QInf.add, QInf.nonneg] at *
          exact add_nonneg ha hb

/-- Sums of nonnegative `QInf` values are nonnegative. -/
theorem QInf.nonneg_sum {l : List QInf} (h : ∀ x ∈ l, QInf.nonneg x) :
    QInf.nonneg (QInf.sum l) := by
  induction l with
  | nil => simp [QInf.sum, QInf.nonneg]
  | cons a t ih =>
      have ha := h a (List.mem_cons_self a t)
      have ht := ih (fun x hx => h x (List.mem_cons_of_mem a hx))
      simpa [QInf.sum] using QInf.nonneg_add ha ht

/-- Squared row distances are nonnegative. -/
theorem rowSqDist_nonneg (row : List QInf) (q : List ℚ) :
    QInf.nonneg (rowSqDist row q) := by
  apply QInf.nonneg_sum
  intro x hx
  induction row generalizing q with
  | nil => simp at hx
  | cons a t ih =>
      cases q with
      | nil => simp at hx
      | cons b u =>
          simp only [List.zipWith] at hx
          rcases List.mem_cons.1 hx with h1 | h2
          · subst h1; exact sqDiff_nonneg a b
          · exact ih u h2

/-- Membership in an insertion step. -/
theorem mem_insertSorted (x y : QInf) (l : List QInf) :
    y ∈ insertSorted x l ↔ y = x ∨ y ∈ l := by
  induction l with
  | nil => simp [insertSorted]
  | cons a t ih =>
      by_cases h : QInf.leb x a
      · simp [insertSorted, h]
      · simp [insertSorted, h, ih]
        tauto

/-- Sorting preserves membership. -/
theorem mem_sortQ (y : QInf) (l : List QInf) : y ∈ sortQ l ↔ y ∈ l := by
  induction l with
  | nil => simp [sortQ]
  | cons a t ih =>
      simp only [sortQ, List.foldr] at *
      rw [mem_insertSorted]
      simp [ih]

/-- Every distance selected by the KNN query is either the infinite sentinel
or the squared distance to some memory row. -/
theorem mem_knn_query {memory : List (List QInf)} {q : List ℚ} {K : ℕ}
    {x : QInf} (hx : x ∈ knn_query memory q K) :
    x = QInf.inf ∨ ∃ row ∈ memory, x = rowSqDist row q := by
  have hx2 := List.mem_of_mem_take hx
  rcases List.mem_append.1 hx2 with h1 | h2
  · rcases List.mem_map.1 ((mem_sortQ x _).1 h1) with ⟨row, hrow, hEq⟩
    exact Or.inr ⟨row, hrow, hEq.symm⟩
  · exact Or.inl (List.eq_of_mem_replicate h2)

/-- Every distance selected by the KNN query is nonnegative. -/
theorem knn_query_nonneg {memory : List (List QInf)} {q : List ℚ} {K : ℕ}
    {x : QInf} (hx : x ∈ knn_query memory q K) : QInf.nonneg x := by
  rcases mem_knn_query hx with h | ⟨row, _, h⟩
  · simp [h, QInf.nonneg]
  · rw [h]; exact rowSqDist_nonneg row q

/-- The KNN query returns exactly `num_neighbors` distances per query. -/
theorem knn_query_length (memory : List (List QInf)) (q : List ℚ) (K : ℕ) :
    (knn_query memory q K).length = K := by
  simp [knn_query]

/-- A value extracted by `finiteRow?` occurs (wrapped) in the original row. -/
theorem finiteRow?_mem : ∀ {l : List QInf} {xs : List ℚ},
    finiteRow? l = some xs → ∀ x ∈ xs, QInf.val x ∈ l := by
  intro l
  induction l with
  | nil => intro xs h x hx; simp [finiteRow?] at h; subst h; simp at hx
  | cons a t ih =>
      intro xs h x hx
      cases a with
      | inf => simp [finiteRow?] at h
      | val v =>
          simp only [finiteRow?, Option.map_eq_some'] at h
          rcases h with ⟨ys, hys, hxs⟩
          subst hxs
          rcases List.mem_cons.1 hx with h1 | h2
          · subst h1; exact List.mem_cons_self _ _
          · exact List.mem_cons_of_mem _ (ih hys x h2)

/-- `finiteRow?` preserves length. -/
theorem finiteRow?_length : ∀ {l : List QInf} {xs : List ℚ},
    finiteRow? l = some xs → xs.length = l.length := by
  intro l
  induction l with
  | nil => intro xs h; simp [finiteRow?] at h; subst h; simp
  | cons a t ih =>
      intro xs h
      cases a with
      | inf => simp [finiteRow?] at h
      | val v =>
          simp only [finiteRow?, Option.map_eq_some'] at h
          rcases h with ⟨ys, hys, hxs⟩
          subst hxs
          simp [ih hys]

/-- Each row extracted by `finiteRows?` comes from some row of the input. -/
theorem finiteRows?_mem : ∀ {l : List (List QInf)} {ds : List (List ℚ)},
    finiteRows? l = some ds → ∀ xs ∈ ds, ∃ r ∈ l, finiteRow? r = some xs := by
  intro l
  induction l with
  | nil => intro ds h xs hxs; simp [finiteRows?] at h; subst h; simp at hxs
  | cons r t ih =>
      intro ds h xs hxs
      simp only [finiteRows?] at h
      cases hr : finiteRow? r with
      | none => rw [hr] at h; simp at h
      | some v =>
          rw [hr] at h
          simp only [Option.map_eq_some'] at h
          rcases h with ⟨ys, hys, hds⟩
          subst hds
          rcases List.mem_cons.1 hxs with h1 | h2
          · subst h1; exact ⟨r, List.mem_cons_self _ _, hr⟩
          · rcases ih hys xs h2 with ⟨r2, hr2, hfr⟩
            exact ⟨r2, List.mem_cons_of_mem _ hr2, hfr⟩

/-- `finiteRows?` preserves the number of rows. -/
theorem finiteRows?_length : ∀ {l : List (List QInf)} {ds : List (List ℚ)},
    finiteRows? l = some ds → ds.length = l.length := by
  intro l
  induction l with
  | nil => intro ds h; simp [finiteRows?] at h; subst h; simp
  | cons r t ih =>
      intro ds h
      simp only [finiteRows?] at h
      cases hr : finiteRow? r with
      | none => rw [hr] at h; simp at h
      | some v =>
          rw [hr] at h
          simp only [Option.map_eq_some'] at h
          rcases h with ⟨ys, hys, hds⟩
          subst hds
          simp [ih hys]

/-- `toRows` always yields `M` rows. -/
theorem toRows_length (M D : ℕ) (data : List ℚ) : (toRows M D data).length = M := by
  simp [toRows]

/-- `insertRows` preserves the number of memory rows. -/
theorem insertRows_length : ∀ (rows : List (List ℚ)) (mem : List (List QInf)) (j : ℕ),
    (insertRows mem j rows).length = mem.length := by
  intro rows
  induction rows with
  | nil => intro mem j; simp [insertRows]
  | cons r rs ih => intro mem j; simp [insertRows, ih]

/-- Two distinct offsets below the modulus land on distinct ring positions. -/
theorem ringIndex_ne {L j c : ℕ} (hc0 : 0 < c) (hcL : c < L) :
    j % L ≠ (j + c) % L := by
  intro h
  have h2 : j ≡ j + c [MOD L] := h
  have h3 : L ∣ c := by
    have := (Nat.modEq_iff_dvd' (Nat.le_add_right j c)).1 h2
    simpa using this
  exact absurd (Nat.le_of_dvd hc0 h3) (not_le.2 hcL)

/-- Positions not written by `insertRows` keep their previous contents. -/
theorem insertRows_get_untouched :
    ∀ (rows : List (List ℚ)) (mem : List (List QInf)) (j i : ℕ),
    (∀ k, k < rows.length → i ≠ (j + k) % mem.length) →
    (insertRows mem j rows)[i]? = mem[i]? := by
  intro rows
  induction rows with
  | nil => intro mem j i _; simp [insertRows]
  | cons r rs ih =>
      intro mem j i h
      simp only [insertRows]
      have hlen : (mem.set (j % mem.length) (r.map QInf.val)).length = mem.length :=
        List.length_set mem _ _
      rw [ih (mem.set (j % mem.length) (r.map QInf.val)) (j + 1) i
        (by
          intro k hk
          rw [hlen]
          have := h (k + 1) (by simpa using Nat.succ_lt_succ hk)
          simpa [Nat.add_assoc, Nat.add_comm 1 k, Nat.add_left_comm] using this)]
      apply List.getElem?_set_ne
      have := h 0 (Nat.succ_pos _)
      simpa using fun hEq => this (by simp [hEq])

/-- Written positions of `insertRows`: when the batch fits into the buffer,
position `(j + k) % length` holds row `k` of the batch afterwards. -/
theorem insertRows_get_written :
    ∀ (rows : List (List ℚ)) (mem : List (List QInf)) (j k : ℕ),
    rows.length ≤ mem.length → k < rows.length →
    (insertRows mem j rows)[(j + k) % mem.length]? =
      (rows[k]?).map (fun r => r.map QInf.val) := by
  intro rows
  induction rows with
  | nil => intro mem j k _ hk; simp at hk
  | cons r rs ih =>
      intro mem j k hle hk
      have hL : 0 < mem.length :=
        Nat.lt_of_lt_of_le (Nat.succ_pos _) (by simpa using hle)
      simp only [insertRows]
      have hlen : (mem.set (j % mem.length) (r.map QInf.val)).length = mem.length :=
        List.length_set mem _ _
      cases k with
      | zero =>
          simp only [Nat.add_zero]
          rw [insertRows_get_untouched rs _ (j + 1) (j % mem.length)
            (by
              intro k2 hk2
              rw [hlen]
              have hc0 : 0 < k2 + 1 := Nat.succ_pos _
              have hcL : k2 + 1 < mem.length := by
                have : k2 + 1 < rs.length + 1 := Nat.succ_lt_succ hk2
                exact Nat.lt_of_lt_of_le this (by simpa using hle)
              have := ringIndex_ne (L := mem.length) (j := j) hc0 hcL
              simpa [Nat.add_assoc, Nat.add_comm 1 k2, Nat.add_left_comm] using this)]
          rw [List.getElem?_set_self (by simpa using Nat.mod_lt j hL)]
          simp
      | succ k2 =>
          have hstep : (j + (k2 + 1)) % mem.length = ((j + 1) + k2) % mem.length := by
            ring_nf
          rw [hstep]
          have := ih (mem.set (j % mem.length) (r.map QInf.val)) (j + 1) k2
            (by rw [hlen]; exact Nat.le_of_succ_le (by simpa using hle))
            (Nat.lt_of_succ_lt_succ (by simpa using hk))
          rw [hlen] at this
          rw [this]
          simp

/-- Closed form of a successful call of the computable core on a supplied
state: shape checks pass and all selected nearest-neighbor distances are
finite. -/
theorem core_ok (sh : List ℕ) (da : List ℚ) (K : ℕ) (s : IntrinsicRewardState)
    (c e x : ℚ) (size M D : ℕ) (hS : sh = [M, D])
    (hLen : s.memory.length = size) (hRows : ∀ r ∈ s.memory, r.length = D)
    (dists : List (List ℚ))
    (hFin : finiteRows? ((toRows M D da).map (fun q => knn_query s.memory q K)) =
      some dists) :
    episodicCore ⟨sh, da⟩ K (some s) c e x size =
      Except.ok
        (dists.map (kernelSumRow
            ((s.distance_sum + sumAll dists) /
              ((s.distance_count + (dists.map List.length).sum : ℕ) : ℚ))
            c e x),
         ⟨insertRows s.memory (s.next_memory_index % s.memory.length)
            (toRows M D da),
          s.next_memory_index % s.memory.length + M % size,
          s.distance_sum + sumAll dists,
          s.distance_count + (dists.map List.length).sum⟩) := by
  subst hS
  have hcond : s.memory.length = size ∧ ∀ r ∈ s.memory, r.length = D :=
    ⟨hLen, hRows⟩
  simp only [episodicCore, validateState, if_pos hcond, runPipeline, hFin]

/-- The total of the finite nearest-neighbor distances is nonnegative. -/
theorem sumAll_nonneg_of_knn {mem : List (List QInf)} {rows : List (List ℚ)}
    {K : ℕ} {dists : List (List ℚ)}
    (hFin : finiteRows? (rows.map (fun q => knn_query mem q K)) = some dists) :
    0 ≤ sumAll dists := by
  apply List.sum_nonneg
  intro y hy
  rcases List.mem_map.1 hy with ⟨r, hr, rfl⟩
  apply List.sum_nonneg
  intro d hd
  rcases finiteRows?_mem hFin r hr with ⟨krow, hkrow, hfr⟩
  rcases List.mem_map.1 hkrow with ⟨q, _, rfl⟩
  have hmem : QInf.val d ∈ knn_query mem q K := finiteRow?_mem hfr d hd
  have := knn_query_nonneg hmem
  simpa [QInf.nonneg] using this

/-- Every extracted distance row has exactly `K` entries. -/
theorem dists_row_length {mem : List (List QInf)} {rows : List (List ℚ)}
    {K : ℕ} {dists : List (List ℚ)}
    (hFin : finiteRows? (rows.map (fun q => knn_query mem q K)) = some dists) :
    ∀ row ∈ dists, row.length = K := by
  intro row hrow
  rcases finiteRows?_mem hFin row hrow with ⟨krow, hkrow, hfr⟩
  rcases List.mem_map.1 hkrow with ⟨q, _, rfl⟩
  rw [finiteRow?_length hfr, knn_query_length]

/-- The number of extracted distances is `(number of queries) * K`. -/
theorem dists_count {mem : List (List QInf)} {rows : List (List ℚ)}
    {K : ℕ} {dists : List (List ℚ)}
    (hFin : finiteRows? (rows.map (fun q => knn_query mem q K)) = some dists) :
    (dists.map List.length).sum = rows.length * K := by
  have hlen : dists.length = rows.length := by
    simpa using finiteRows?_length hFin
  have hall : ∀ n ∈ dists.map List.length, n = K := by
    intro n hn
    rcases List.mem_map.1 hn with ⟨r, hr, rfl⟩
    exact dists_row_length hFin r hr
  have hrep : dists.map List.length = List.replicate rows.length K :=
    List.eq_replicate_iff.2 ⟨by simp [hlen], hall⟩
  rw [hrep, List.sum_replicate, smul_eq_mul]

/-- The fresh memory has `max_memory_size` rows. -/
theorem initMemory_length (size K D : ℕ) : (initMemory size K D).length = size := by
  simp [initMemory]

/-- Every fresh memory row is `D`-dimensional. -/
theorem initMemory_rows_length (size K D : ℕ) :
    ∀ r ∈ initMemory size K D, r.length = D := by
  intro r hr
  rcases List.mem_map.1 hr with ⟨i, _, rfl⟩
  by_cases h : i < K <;> simp [h]

/-- The similarity is at least the additive constant. -/
theorem similarityOf_ge (c k : ℚ) : (c : ℝ) ≤ similarityOf c k := by
  unfold similarityOf
  have := Real.sqrt_nonneg ((k : ℚ) : ℝ)
  linarith

/-- The similarity is positive whenever the constant is. -/
theorem similarityOf_pos {c : ℚ} (k : ℚ) (hc : 0 < c) : 0 < similarityOf c k :=
  lt_of_lt_of_le (by exact_mod_cast hc) (similarityOf_ge c k)

/-- The reward stage always yields a nonnegative reward when the stability
constant is positive and the scale is nonnegative. -/
theorem rewardOfKernelSum_nonneg {c : ℚ} (m : ℚ) {β : ℚ} (k : ℚ)
    (hc : 0 < c) (hβ : 0 ≤ β) : 0 ≤ rewardOfKernelSum c m β k := by
  unfold rewardOfKernelSum
  have hsim := similarityOf_pos k hc
  have hβ2 : (0 : ℝ) ≤ (β : ℚ) := by exact_mod_cast hβ
  by_cases h : (m : ℝ) < similarityOf c k
  · simp [h]
  · rw [if_neg h]
    apply mul_nonneg _ hβ2
    positivity

/-- The reward stage yields zero when the similarity exceeds the bound. -/
theorem rewardOfKernelSum_zero (c m β k : ℚ)
    (h : (m : ℝ) < similarityOf c k) : rewardOfKernelSum c m β k = 0 := by
  unfold rewardOfKernelSum
  rw [if_pos h]
  simp

/-- The kernel value lies in `(0, 1]` whenever `epsilon` is positive,
irrespective of the distance: the clip at zero bounds the rate below. -/
theorem kernelValue_bounds (mean c x d : ℚ) {e : ℚ} (he : 0 < e) :
    0 < kernelValue mean c e x d ∧ kernelValue mean c e x d ≤ 1 := by
  unfold kernelValue
  have h0 : (0 : ℚ) ≤ max (d / (mean + c) - x) 0 := le_max_right _ _
  constructor
  · apply div_pos he
    linarith
  · rw [div_le_one (by linarith)]
    linarith

/-- The kernel sum over a row of `K` distances lies in `[0, K]` whenever
`epsilon` is positive. -/
theorem kernelSumRow_bounds (mean c x : ℚ) {e : ℚ} (he : 0 < e)
    (row : List ℚ) : 0 ≤ kernelSumRow mean c e x row ∧
      kernelSumRow mean c e x row ≤ (row.length : ℚ) := by
  constructor
  · apply List.sum_nonneg
    intro y hy
    rcases List.mem_map.1 hy with ⟨d, _, rfl⟩
    exact le_of_lt (kernelValue_bounds mean c x d he).1
  · have h1 : (row.map (kernelValue mean c e x)).sum ≤
        (row.map (kernelValue mean c e x)).length • (1 : ℚ) := by
      apply List.sum_le_card_nsmul
      intro y hy
      rcases List.mem_map.1 hy with ⟨d, _, rfl⟩
      exact (kernelValue_bounds mean c x d he).2
    have h2 : ((row.map (kernelValue mean c e x)).length • (1 : ℚ)) = (row.length : ℚ) := by
      simp [nsmul_eq_mul]
    calc kernelSumRow mean c e x row ≤ _ := h1
      _ = _ := h2

/-- C2: for every input embeddings array that is not rank-2 (not of shape
`[M, D]`), `episodic_memory_intrinsic_rewards` fails with a validation error
before producing a reward or a new state. -/
theorem claim_C2_rank2_validation (a : Arr) (K : ℕ) (β : ℚ)
    (st : Option IntrinsicRewardState) (c e x m : ℚ) (size : ℕ)
    (h : a.shape.length ≠ 2) :
    ∃ msg, episodic_memory_intrinsic_rewards a K β st c e x m size =
      Except.error msg := by
  obtain ⟨sh, da⟩ := a
  rcases sh with _ | ⟨s1, _ | ⟨s2, _ | ⟨s3, t⟩⟩⟩
  · exact ⟨_, rfl⟩
  · exact ⟨_, rfl⟩
  · simp at h
  · exact ⟨_, rfl⟩

/-- Witness for C2 at a concrete rank-1 input. -/
theorem claim_C2_witness :
    (Arr.mk [2] [1, 2]).shape.length ≠ 2 ∧
    ∃ msg, episodic_memory_intrinsic_rewards ⟨[2], [1, 2]⟩ 1 1 none 1 1 0 8 5 =
      Except.error msg :=
  ⟨by decide, claim_C2_rank2_validation ⟨[2], [1, 2]⟩ 1 1 none 1 1 0 8 5 (by decide)⟩

/-- C8: for every supplied prior state whose memory shape differs from
`[max_memory_size, D]` (with `D` the column count of the embeddings),
`episodic_memory_intrinsic_rewards` fails validation with an error before
computing any reward or producing any new state; being a pure function, it
leaves the input state unchanged. -/
theorem claim_C8_state_shape_validation (da : List ℚ) (M D K size : ℕ)
    (β c e x m : ℚ) (s : IntrinsicRewardState)
    (h : ¬(s.memory.length = size ∧ ∀ r ∈ s.memory, r.length = D)) :
    ∃ msg, episodic_memory_intrinsic_rewards ⟨[M, D], da⟩ K β (some s) c e x m size =
      Except.error msg := by
  have hmsg : episodic_memory_intrinsic_rewards ⟨[M, D], da⟩ K β (some s) c e x m size =
      Except.error
        "intrinsic_reward_state.memory does not have shape [max_memory_size, D]" := by
    simp only [episodic_memory_intrinsic_rewards, episodicCore, validateState,
      if_neg h]
    rfl
  exact ⟨_, hmsg⟩

/-- Witness for C8 at a concrete state with one memory row where two are
required. -/
theorem claim_C8_witness :
    ¬((⟨[[QInf.val 0]], 0, 0, 0⟩ : IntrinsicRewardState).memory.length = 2 ∧
      ∀ r ∈ (⟨[[QInf.val 0]], 0, 0, 0⟩ : IntrinsicRewardState).memory, r.length = 1) ∧
    ∃ msg, episodic_memory_intrinsic_rewards ⟨[1, 1], [5]⟩ 1 1
      (some ⟨[[QInf.val 0]], 0, 0, 0⟩) 1 1 0 8 2 = Except.error msg :=
  ⟨by decide,
   claim_C8_state_shape_validation [5] 1 1 1 2 1 1 1 0 8 ⟨[[QInf.val 0]], 0, 0, 0⟩
     (by decide)⟩

/-- C9: `add_gaussian_noise` with `stddev = 0` returns the action unchanged,
for every action and every standard-normal draw of matching shape (the noise
term is identically zero). -/
theorem claim_C9_gaussian_zero_stddev (normal_sample action : List ℚ)
    (h : normal_sample.length = action.length) :
    add_gaussian_noise normal_sample action 0 = action := by
  induction action generalizing normal_sample with
  | nil => simp [add_gaussian_noise]
  | cons a t ih =>
      cases normal_sample with
      | nil => simp at h
      | cons z zs =>
          have h2 : zs.length = t.length := by simpa using h
          have ht := ih zs h2
          simp only [add_gaussian_noise, List.map_cons, List.zipWith_cons_cons,
            mul_zero, add_zero] at ht ⊢
          rw [ht]

/-- Witness for C9 at a concrete action and draw. -/
theorem claim_C9_witness :
    ([3] : List ℚ).length = ([7] : List ℚ).length ∧
    add_gaussian_noise [3] [7] 0 = [7] :=
  ⟨rfl, claim_C9_gaussian_zero_stddev [3] [7] rfl⟩

/-- C1: refuted by the source.  Line 277 returns
`start_index + embeddings.shape[0] % max_memory_size`, in which the Python `%`
binds tighter than `+`, i.e. `start_index + (M % max_memory_size)` instead of
`(start_index + M) % max_memory_size`.  With `max_memory_size = 2`, a prior
state whose `next_memory_index` is `1` and a single embedding (`M = 1`), the
call succeeds and returns `next_memory_index = 2`, which differs from
`(1 + 1) % 2 = 0` and lies outside `[0, 2)`. -/
theorem claim_C1_next_memory_index_not_wrapped :
    ∃ (r : List ℝ) (st : IntrinsicRewardState),
      episodic_memory_intrinsic_rewards ⟨[1, 1], [5]⟩ 1 1
          (some ⟨[[QInf.val 0], [QInf.val 0]], 1, 0, 0⟩) 1 1 0 8 2 =
        Except.ok (r, st) ∧
      st.next_memory_index = 2 ∧ (1 + 1) % 2 = 0 ∧
      st.next_memory_index ≠ (1 + 1) % 2 ∧ ¬ st.next_memory_index < 2 := by
  have hFin : finiteRows? ((toRows 1 1 [5]).map
      (fun q => knn_query [[QInf.val 0], [QInf.val 0]] q 1)) = some [[25]] := by
    norm_num [toRows, knn_query, sortQ, insertSorted, rowSqDist, sqDiff,
      QInf.sum, QInf.add, QInf.leb, finiteRows?, finiteRow?, List.range_succ]
  have hcore := core_ok [1, 1] [5] 1 ⟨[[QInf.val 0], [QInf.val 0]], 1, 0, 0⟩
    1 1 0 2 1 1 rfl rfl (by decide) [[25]] hFin
  have hfull : episodic_memory_intrinsic_rewards ⟨[1, 1], [5]⟩ 1 1
      (some ⟨[[QInf.val 0], [QInf.val 0]], 1, 0, 0⟩) 1 1 0 8 2 =
      Except.ok ([rewardOfKernelSum 1 8 1 (26/51)],
        ⟨[[QInf.val 0], [QInf.val 5]], 2, 25, 1⟩) := by
    simp only [episodic_memory_intrinsic_rewards]
    rw [hcore]
    norm_num [Except.map, sumAll, toRows, List.range_succ, insertRows,
      kernelSumRow, kernelValue, max_def]
  exact ⟨_, _, hfull, rfl, rfl, by decide, by decide⟩

/-- C5: a call with no prior state behaves exactly as a call supplied with
the freshly constructed state, whose memory has `max_memory_size` rows of
dimension `D` (taken from the embeddings), the first `num_neighbors` of which
are the zero vector while every other row is the "infinitely far" sentinel,
and whose `next_memory_index`, `distance_sum` and `distance_count` are
zero. -/
theorem claim_C5_fresh_state_structure (sh : List ℕ) (da : List ℚ)
    (K size D : ℕ) (β c e x m : ℚ)
    (hD : sh.getLast? = some D) (hK : K ≤ size) :
    episodic_memory_intrinsic_rewards ⟨sh, da⟩ K β none c e x m size =
      episodic_memory_intrinsic_rewards ⟨sh, da⟩ K β
        (some (freshState size K D)) c e x m size ∧
    (freshState size K D).memory.length = size ∧
    (∀ i, i < K →
      (freshState size K D).memory[i]? = some (List.replicate D (QInf.val 0))) ∧
    (∀ i, K ≤ i → i < size →
      (freshState size K D).memory[i]? = some (List.replicate D QInf.inf)) ∧
    (freshState size K D).next_memory_index = 0 ∧
    (freshState size K D).distance_sum = 0 ∧
    (freshState size K D).distance_count = 0 := by
  refine ⟨?_, initMemory_length size K D, ?_, ?_, rfl, rfl, rfl⟩
  · rcases sh with _ | ⟨s1, _ | ⟨s2, _ | ⟨s3, t⟩⟩⟩
    · simp at hD
    · rfl
    · have hD2 : s2 = D := by simpa using hD
      subst hD2
      simp only [episodic_memory_intrinsic_rewards, episodicCore, validateState]
      rw [if_pos (And.intro
        (show (freshState size K s2).memory.length = size from
          initMemory_length size K s2)
        (show ∀ r ∈ (freshState size K s2).memory, r.length = s2 from
          initMemory_rows_length size K s2))]
    · rfl
  · intro i hiK
    have hisize : i < size := lt_of_lt_of_le hiK hK
    simp [freshState, initMemory, List.getElem?_map, List.getElem?_range hisize, hiK]
  · intro i hKi hisize
    simp [freshState, initMemory, List.getElem?_map, List.getElem?_range hisize,
      not_lt.2 hKi]

/-- C3: on every successful call with a supplied prior state, the returned
state's `distance_sum` is at least the input `distance_sum`, and the returned
`distance_count` is at least the input `distance_count`. -/
theorem claim_C3_running_stats_monotone (da : List ℚ) (M D K size : ℕ)
    (β c e x m : ℚ) (s : IntrinsicRewardState) (dists : List (List ℚ))
    (hLen : s.memory.length = size) (hRows : ∀ r ∈ s.memory, r.length = D)
    (hFin : finiteRows? ((toRows M D da).map (fun q => knn_query s.memory q K)) =
      some dists) :
    ∃ r st, episodic_memory_intrinsic_rewards ⟨[M, D], da⟩ K β (some s)
        c e x m size = Except.ok (r, st) ∧
      s.distance_sum ≤ st.distance_sum ∧
      s.distance_count ≤ st.distance_count := by
  have hcore := core_ok [M, D] da K s c e x size M D rfl hLen hRows dists hFin
  have hfull : episodic_memory_intrinsic_rewards ⟨[M, D], da⟩ K β (some s)
      c e x m size =
      Except.ok
        ((dists.map (kernelSumRow
            ((s.distance_sum + sumAll dists) /
              ((s.distance_count + (dists.map List.length).sum : ℕ) : ℚ))
            c e x)).map (rewardOfKernelSum c m β),
         ⟨insertRows s.memory (s.next_memory_index % s.memory.length)
            (toRows M D da),
          s.next_memory_index % s.memory.length + M % size,
          s.distance_sum + sumAll dists,
          s.distance_count + (dists.map List.length).sum⟩) := by
    simp only [episodic_memory_intrinsic_rewards]
    rw [hcore]
    rfl
  refine ⟨_, _, hfull, ?_, ?_⟩
  · exact le_add_of_nonneg_right (sumAll_nonneg_of_knn hFin)
  · exact Nat.le_add_right _ _

/-- Witness for C3 at a concrete one-slot memory and one embedding. -/
theorem claim_C3_witness :
    (finiteRows? ((toRows 1 1 [5]).map (fun q => knn_query [[QInf.val 0]] q 1)) =
      some [[25]]) ∧
    ∃ r st, episodic_memory_intrinsic_rewards ⟨[1, 1], [5]⟩ 1 1
        (some ⟨[[QInf.val 0]], 0, 0, 0⟩) 1 1 0 8 1 = Except.ok (r, st) ∧
      (⟨[[QInf.val 0]], 0, 0, 0⟩ : IntrinsicRewardState).distance_sum ≤
        st.distance_sum ∧
      (⟨[[QInf.val 0]], 0, 0, 0⟩ : IntrinsicRewardState).distance_count ≤
        st.distance_count := by
  have hFin : finiteRows? ((toRows 1 1 [5]).map
      (fun q => knn_query [[QInf.val 0]] q 1)) = some [[25]] := by
    norm_num [toRows, knn_query, sortQ, insertSorted, rowSqDist, sqDiff,
      QInf.sum, QInf.add, finiteRows?, finiteRow?, List.range_succ]
  exact ⟨hFin, claim_C3_running_stats_monotone [5] 1 1 1 1 1 1 1 0 8
    ⟨[[QInf.val 0]], 0, 0, 0⟩ [[25]] rfl (by decide) hFin⟩

/-- C6: on every successful call with a supplied prior state, the returned
`distance_sum` is the input `distance_sum` plus the sum of all `M * K`
nearest-neighbor squared distances returned by the KNN query, the returned
`distance_count` is the input `distance_count` plus `M * K`, and the rewards
of the same call are computed from kernel sums normalized by the post-update
quotient `distance_sum / distance_count`. -/
theorem claim_C6_running_stats_update (da : List ℚ) (M D K size : ℕ)
    (β c e x m : ℚ) (s : IntrinsicRewardState) (dists : List (List ℚ))
    (hLen : s.memory.length = size) (hRows : ∀ r ∈ s.memory, r.length = D)
    (hFin : finiteRows? ((toRows M D da).map (fun q => knn_query s.memory q K)) =
      some dists) :
    ∃ st, episodic_memory_intrinsic_rewards ⟨[M, D], da⟩ K β (some s)
        c e x m size =
        Except.ok
          ((dists.map (kernelSumRow
              ((s.distance_sum + sumAll dists) /
                ((s.distance_count + M * K : ℕ) : ℚ)) c e x)).map
            (rewardOfKernelSum c m β), st) ∧
      st.distance_sum = s.distance_sum + sumAll dists ∧
      st.distance_count = s.distance_count + M * K := by
  have hMK : (dists.map List.length).sum = M * K := by
    have h := dists_count hFin
    rwa [toRows_length] at h
  have hcore := core_ok [M, D] da K s c e x size M D rfl hLen hRows dists hFin
  rw [hMK] at hcore
  have hfull : episodic_memory_intrinsic_rewards ⟨[M, D], da⟩ K β (some s)
      c e x m size =
      Except.ok
        ((dists.map (kernelSumRow
            ((s.distance_sum + sumAll dists) /
              ((s.distance_count + M * K : ℕ) : ℚ)) c e x)).map
          (rewardOfKernelSum c m β),
         ⟨insertRows s.memory (s.next_memory_index % s.memory.length)
            (toRows M D da),
          s.next_memory_index % s.memory.length + M % size,
          s.distance_sum + sumAll dists,
          s.distance_count + M * K⟩) := by
    simp only [episodic_memory_intrinsic_rewards]
    rw [hcore]
    rfl
  exact ⟨_, hfull, rfl, rfl⟩

/-- Witness for C6 at a concrete one-slot memory and one embedding. -/
theorem claim_C6_witness :
    (finiteRows? ((toRows 1 1 [5]).map (fun q => knn_query [[QInf.val 0]] q 1)) =
      some [[25]]) ∧
    ∃ st, episodic_memory_intrinsic_rewards ⟨[1, 1], [5]⟩ 1 1
        (some ⟨[[QInf.val 0]], 0, 0, 0⟩) 1 1 0 8 1 =
        Except.ok
          (([[(25 : ℚ)]].map (kernelSumRow
              (((⟨[[QInf.val 0]], 0, 0, 0⟩ : IntrinsicRewardState).distance_sum +
                  sumAll [[25]]) /
                (((⟨[[QInf.val 0]], 0, 0, 0⟩ : IntrinsicRewardState).distance_count +
                    1 * 1 : ℕ) : ℚ)) 1 1 0)).map
            (rewardOfKernelSum 1 8 1), st) ∧
      st.distance_sum =
        (⟨[[QInf.val 0]], 0, 0, 0⟩ : IntrinsicRewardState).distance_sum +
          sumAll [[25]] ∧
      st.distance_count =
        (⟨[[QInf.val 0]], 0, 0, 0⟩ : IntrinsicRewardState).distance_count +
          1 * 1 := by
  have hFin : finiteRows? ((toRows 1 1 [5]).map
      (fun q => knn_query [[QInf.val 0]] q 1)) = some [[25]] := by
    norm_num [toRows, knn_query, sortQ, insertSorted, rowSqDist, sqDiff,
      QInf.sum, QInf.add, finiteRows?, finiteRow?, List.range_succ]
  exact ⟨hFin, claim_C6_running_stats_update [5] 1 1 1 1 1 1 1 0 8
    ⟨[[QInf.val 0]], 0, 0, 0⟩ [[25]] rfl (by decide) hFin⟩

/-- C7: within one successful call the rewards are computed from the
nearest-neighbor distances taken against the memory as it was before the
batch is inserted (the hypothesis and the reward expression both refer to
`knn_query` on the input state's memory, so no embedding of the batch can be
among the neighbors of another embedding of the same call), and the batch is
then written at consecutive ring-buffer slots starting at
`next_memory_index % max_memory_size`, wrapping modulo `max_memory_size`,
leaving all other slots unchanged. -/
theorem claim_C7_query_precedes_insertion (da : List ℚ) (M D K size : ℕ)
    (β c e x m : ℚ) (s : IntrinsicRewardState) (dists : List (List ℚ))
    (hLen : s.memory.length = size) (hRows : ∀ r ∈ s.memory, r.length = D)
    (hFin : finiteRows? ((toRows M D da).map (fun q => knn_query s.memory q K)) =
      some dists)
    (hM : M ≤ size) :
    ∃ st, episodic_memory_intrinsic_rewards ⟨[M, D], da⟩ K β (some s)
        c e x m size =
        Except.ok
          ((dists.map (kernelSumRow
              ((s.distance_sum + sumAll dists) /
                ((s.distance_count + (dists.map List.length).sum : ℕ) : ℚ))
              c e x)).map (rewardOfKernelSum c m β), st) ∧
      (∀ j, j < M →
        st.memory[(s.next_memory_index % size + j) % size]? =
          ((toRows M D da)[j]?).map (fun r => r.map QInf.val)) ∧
      (∀ i, (∀ j, j < M → i ≠ (s.next_memory_index % size + j) % size) →
        st.memory[i]? = s.memory[i]?) := by
  have hcore := core_ok [M, D] da K s c e x size M D rfl hLen hRows dists hFin
  have hfull : episodic_memory_intrinsic_rewards ⟨[M, D], da⟩ K β (some s)
      c e x m size =
      Except.ok
        ((dists.map (kernelSumRow
            ((s.distance_sum + sumAll dists) /
              ((s.distance_count + (dists.map List.length).sum : ℕ) : ℚ))
            c e x)).map (rewardOfKernelSum c m β),
         ⟨insertRows s.memory (s.next_memory_index % s.memory.length)
            (toRows M D da),
          s.next_memory_index % s.memory.length + M % size,
          s.distance_sum + sumAll dists,
          s.distance_count + (dists.map List.length).sum⟩) := by
    simp only [episodic_memory_intrinsic_rewards]
    rw [hcore]
    rfl
  refine ⟨_, hfull, ?_, ?_⟩
  · intro j hj
    show (insertRows s.memory (s.next_memory_index % s.memory.length)
      (toRows M D da))[(s.next_memory_index % size + j) % size]? = _
    rw [hLen]
    have hw := insertRows_get_written (toRows M D da) s.memory
      (s.next_memory_index % size) j
      (by rw [toRows_length, hLen]; exact hM)
      (by rw [toRows_length]; exact hj)
    rw [hLen] at hw
    exact hw
  · intro i hi
    show (insertRows s.memory (s.next_memory_index % s.memory.length)
      (toRows M D da))[i]? = s.memory[i]?
    rw [hLen]
    apply insertRows_get_untouched
    intro k hk
    rw [hLen]
    exact hi k (by rwa [toRows_length] at hk)

/-- Witness for C7 at a concrete one-slot memory and one embedding. -/
theorem claim_C7_witness :
    (finiteRows? ((toRows 1 1 [5]).map (fun q => knn_query [[QInf.val 0]] q 1)) =
      some [[25]]) ∧ 1 ≤ 1 ∧
    ∃ st, episodic_memory_intrinsic_rewards ⟨[1, 1], [5]⟩ 1 1
        (some ⟨[[QInf.val 0]], 0, 0, 0⟩) 1 1 0 8 1 =
        Except.ok
          (([[(25 : ℚ)]].map (kernelSumRow
              (((⟨[[QInf.val 0]], 0, 0, 0⟩ : IntrinsicRewardState).distance_sum +
                  sumAll [[25]]) /
                (((⟨[[QInf.val 0]], 0, 0, 0⟩ : IntrinsicRewardState).distance_count +
                    (([[(25 : ℚ)]].map List.length).sum) : ℕ) : ℚ)) 1 1 0)).map
            (rewardOfKernelSum 1 8 1), st) ∧
      (∀ j, j < 1 →
        st.memory[((⟨[[QInf.val 0]], 0, 0, 0⟩ : IntrinsicRewardState).next_memory_index % 1 + j) % 1]? =
          ((toRows 1 1 [5])[j]?).map (fun r => r.map QInf.val)) ∧
      (∀ i, (∀ j, j < 1 →
          i ≠ ((⟨[[QInf.val 0]], 0, 0, 0⟩ : IntrinsicRewardState).next_memory_index % 1 + j) % 1) →
        st.memory[i]? =
          (⟨[[QInf.val 0]], 0, 0, 0⟩ : IntrinsicRewardState).memory[i]?) := by
  have hFin : finiteRows? ((toRows 1 1 [5]).map
      (fun q => knn_query [[QInf.val 0]] q 1)) = some [[25]] := by
    norm_num [toRows, knn_query, sortQ, insertSorted, rowSqDist, sqDiff,
      QInf.sum, QInf.add, finiteRows?, finiteRow?, List.range_succ]
  exact ⟨hFin, le_refl 1, claim_C7_query_precedes_insertion [5] 1 1 1 1 1 1 1 0 8
    ⟨[[QInf.val 0]], 0, 0, 0⟩ [[25]] rfl (by decide) hFin (le_refl 1)⟩

/-- C4: on every successful call with positive stability constant and
nonnegative reward scale, every entry of the returned reward vector is
nonnegative (and, being a real number of the model, finite), and the reward
of an embedding is exactly zero whenever its computed similarity exceeds
`max_similarity`. -/
theorem claim_C4_reward_bounded (da : List ℚ) (M D K size : ℕ)
    (β c e x m : ℚ) (s : IntrinsicRewardState) (dists : List (List ℚ))
    (hLen : s.memory.length = size) (hRows : ∀ r ∈ s.memory, r.length = D)
    (hFin : finiteRows? ((toRows M D da).map (fun q => knn_query s.memory q K)) =
      some dists)
    (hc : 0 < c) (hβ : 0 ≤ β) :
    ∃ (ks : List ℚ) (st : IntrinsicRewardState),
      episodic_memory_intrinsic_rewards ⟨[M, D], da⟩ K β (some s)
        c e x m size =
        Except.ok (ks.map (rewardOfKernelSum c m β), st) ∧
      ∀ k ∈ ks, 0 ≤ rewardOfKernelSum c m β k ∧
        ((m : ℝ) < similarityOf c k → rewardOfKernelSum c m β k = 0) := by
  have hcore := core_ok [M, D] da K s c e x size M D rfl hLen hRows dists hFin
  have hfull : episodic_memory_intrinsic_rewards ⟨[M, D], da⟩ K β (some s)
      c e x m size =
      Except.ok
        ((dists.map (kernelSumRow
            ((s.distance_sum + sumAll dists) /
              ((s.distance_count + (dists.map List.length).sum : ℕ) : ℚ))
            c e x)).map (rewardOfKernelSum c m β),
         ⟨insertRows s.memory (s.next_memory_index % s.memory.length)
            (toRows M D da),
          s.next_memory_index % s.memory.length + M % size,
          s.distance_sum + sumAll dists,
          s.distance_count + (dists.map List.length).sum⟩) := by
    simp only [episodic_memory_intrinsic_rewards]
    rw [hcore]
    rfl
  refine ⟨_, _, hfull, ?_⟩
  intro k _
  exact ⟨rewardOfKernelSum_nonneg m k hc hβ, rewardOfKernelSum_zero c m β k⟩

/-- Witness for C4 at a concrete one-slot memory and one embedding. -/
theorem claim_C4_witness :
    (finiteRows? ((toRows 1 1 [5]).map (fun q => knn_query [[QInf.val 0]] q 1)) =
      some [[25]]) ∧ (0 : ℚ) < 1 ∧ (0 : ℚ) ≤ 1 ∧
    ∃ (ks : List ℚ) (st : IntrinsicRewardState),
      episodic_memory_intrinsic_rewards ⟨[1, 1], [5]⟩ 1 1
        (some ⟨[[QInf.val 0]], 0, 0, 0⟩) 1 1 0 8 1 =
        Except.ok (ks.map (rewardOfKernelSum 1 8 1), st) ∧
      ∀ k ∈ ks, 0 ≤ rewardOfKernelSum 1 8 1 k ∧
        ((8 : ℝ) < similarityOf 1 k → rewardOfKernelSum 1 8 1 k = 0) := by
  have hFin : finiteRows? ((toRows 1 1 [5]).map
      (fun q => knn_query [[QInf.val 0]] q 1)) = some [[25]] := by
    norm_num [toRows, knn_query, sortQ, insertSorted, rowSqDist, sqDiff,
      QInf.sum, QInf.add, finiteRows?, finiteRow?, List.range_succ]
  exact ⟨hFin, by norm_num, by norm_num,
    claim_C4_reward_bounded [5] 1 1 1 1 1 1 1 0 8 ⟨[[QInf.val 0]], 0, 0, 0⟩
      [[25]] rfl (by decide) hFin (by norm_num) (by norm_num)⟩

/-- C10: on every successful call with positive `constant` and `epsilon`
and nonnegative KNN squared distances, every kernel value lies in `(0, 1]`
(the clip at zero bounds the rate below), every per-embedding kernel sum lies
in `[0, K]`, every per-embedding similarity lies in
`[constant, sqrt K + constant]` and is positive (so the reward division never
divides by zero), and every unscaled reward `1 / similarity` lies in
`[1 / (sqrt K + constant), 1 / constant]`. -/
theorem claim_C10_similarity_bounds (da : List ℚ) (M D K size : ℕ)
    (β c e x m : ℚ) (s : IntrinsicRewardState) (dists : List (List ℚ))
    (hLen : s.memory.length = size) (hRows : ∀ r ∈ s.memory, r.length = D)
    (hFin : finiteRows? ((toRows M D da).map (fun q => knn_query s.memory q K)) =
      some dists)
    (hc : 0 < c) (he : 0 < e)
    (_hNN : ∀ row ∈ dists, ∀ d ∈ row, 0 ≤ d) :
    ∃ (ks : List ℚ) (st : IntrinsicRewardState),
      episodic_memory_intrinsic_rewards ⟨[M, D], da⟩ K β (some s)
        c e x m size =
        Except.ok (ks.map (rewardOfKernelSum c m β), st) ∧
      (∀ mean d : ℚ, 0 < kernelValue mean c e x d ∧ kernelValue mean c e x d ≤ 1) ∧
      ∀ k ∈ ks, 0 ≤ k ∧ k ≤ (K : ℚ) ∧
        (c : ℝ) ≤ similarityOf c k ∧ 0 < similarityOf c k ∧
        similarityOf c k ≤ Real.sqrt (K : ℝ) + (c : ℝ) ∧
        1 / (Real.sqrt (K : ℝ) + (c : ℝ)) ≤ 1 / similarityOf c k ∧
        1 / similarityOf c k ≤ 1 / (c : ℝ) := by
  have hcore := core_ok [M, D] da K s c e x size M D rfl hLen hRows dists hFin
  have hfull : episodic_memory_intrinsic_rewards ⟨[M, D], da⟩ K β (some s)
      c e x m size =
      Except.ok
        ((dists.map (kernelSumRow
            ((s.distance_sum + sumAll dists) /
              ((s.distance_count + (dists.map List.length).sum : ℕ) : ℚ))
            c e x)).map (rewardOfKernelSum c m β),
         ⟨insertRows s.memory (s.next_memory_index % s.memory.length)
            (toRows M D da),
          s.next_memory_index % s.memory.length + M % size,
          s.distance_sum + sumAll dists,
          s.distance_count + (dists.map List.length).sum⟩) := by
    simp only [episodic_memory_intrinsic_rewards]
    rw [hcore]
    rfl
  refine ⟨_, _, hfull, fun mean d => kernelValue_bounds mean c x d he, ?_⟩
  intro k hk
  rcases List.mem_map.1 hk with ⟨row, hrow, rfl⟩
  have hrl : row.length = K := dists_row_length hFin row hrow
  have hb := kernelSumRow_bounds
    ((s.distance_sum + sumAll dists) /
      ((s.distance_count + (dists.map List.length).sum : ℕ) : ℚ)) c x he row
  rw [hrl] at hb
  have h0 := hb.1
  have h1 := hb.2
  have hsge := similarityOf_ge c (kernelSumRow
    ((s.distance_sum + sumAll dists) /
      ((s.distance_count + (dists.map List.length).sum : ℕ) : ℚ)) c e x row)
  have hspos := similarityOf_pos (kernelSumRow
    ((s.distance_sum + sumAll dists) /
      ((s.distance_count + (dists.map List.length).sum : ℕ) : ℚ)) c e x row) hc
  have hsle : similarityOf c (kernelSumRow
      ((s.distance_sum + sumAll dists) /
        ((s.distance_count + (dists.map List.length).sum : ℕ) : ℚ)) c e x row) ≤
      Real.sqrt (K : ℝ) + (c : ℝ) := by
    unfold similarityOf
    have hcast : ((kernelSumRow
        ((s.distance_sum + sumAll dists) /
          ((s.distance_count + (dists.map List.length).sum : ℕ) : ℚ)) c e x row : ℚ) : ℝ) ≤
        (K : ℝ) := by
      exact_mod_cast h1
    have := Real.sqrt_le_sqrt hcast
    linarith [this]
  refine ⟨h0, h1, hsge, hspos, hsle, ?_, ?_⟩
  · exact one_div_le_one_div_of_le hspos hsle
  · exact one_div_le_one_div_of_le (by exact_mod_cast hc) hsge

/-- Witness for C5 at a concrete shape `[1, 1]`, `K = 1`,
`max_memory_size = 2`. -/
theorem claim_C5_witness :
    (([1, 1] : List ℕ).getLast? = some 1) ∧ 1 ≤ 2 ∧
    (episodic_memory_intrinsic_rewards ⟨[1, 1], [5]⟩ 1 1 none 1 1 0 8 2 =
      episodic_memory_intrinsic_rewards ⟨[1, 1], [5]⟩ 1 1
        (some (freshState 2 1 1)) 1 1 0 8 2 ∧
    (freshState 2 1 1).memory.length = 2 ∧
    (∀ i, i < 1 →
      (freshState 2 1 1).memory[i]? = some (List.replicate 1 (QInf.val 0))) ∧
    (∀ i, 1 ≤ i → i < 2 →
      (freshState 2 1 1).memory[i]? = some (List.replicate 1 QInf.inf)) ∧
    (freshState 2 1 1).next_memory_index = 0 ∧
    (freshState 2 1 1).distance_sum = 0 ∧
    (freshState 2 1 1).distance_count = 0) :=
  ⟨by decide, by decide,
   claim_C5_fresh_state_structure [1, 1] [5] 1 2 1 1 1 1 0 8 (by decide) (by decide)⟩

/-- Witness for C10 at a concrete one-slot memory and one embedding. -/
theorem claim_C10_witness :
    (finiteRows? ((toRows 1 1 [5]).map (fun q => knn_query [[QInf.val 0]] q 1)) =
      some [[25]]) ∧ (0 : ℚ) < 1 ∧
    (∀ row ∈ ([[(25 : ℚ)]] : List (List ℚ)), ∀ d ∈ row, 0 ≤ d) ∧
    ∃ (ks : List ℚ) (st : IntrinsicRewardState),
      episodic_memory_intrinsic_rewards ⟨[1, 1], [5]⟩ 1 1
        (some ⟨[[QInf.val 0]], 0, 0, 0⟩) 1 1 0 8 1 =
        Except.ok (ks.map (rewardOfKernelSum 1 8 1), st) ∧
      (∀ mean d : ℚ, 0 < kernelValue mean 1 1 0 d ∧ kernelValue mean 1 1 0 d ≤ 1) ∧
      ∀ k ∈ ks, 0 ≤ k ∧ k ≤ ((1 : ℕ) : ℚ) ∧
        ((1 : ℚ) : ℝ) ≤ similarityOf 1 k ∧ 0 < similarityOf 1 k ∧
        similarityOf 1 k ≤ Real.sqrt ((1 : ℕ) : ℝ) + ((1 : ℚ) : ℝ) ∧
        1 / (Real.sqrt ((1 : ℕ) : ℝ) + ((1 : ℚ) : ℝ)) ≤ 1 / similarityOf 1 k ∧
        1 / similarityOf 1 k ≤ 1 / ((1 : ℚ) : ℝ) := by
  have hFin : finiteRows? ((toRows 1 1 [5]).map
      (fun q => knn_query [[QInf.val 0]] q 1)) = some [[25]] := by
    norm_num [toRows, knn_query, sortQ, insertSorted, rowSqDist, sqDiff,
      QInf.sum, QInf.add, finiteRows?, finiteRow?, List.range_succ]
  exact ⟨hFin, by norm_num, by norm_num,
    claim_C10_similarity_bounds [5] 1 1 1 1 1 1 1 0 8 ⟨[[QInf.val 0]], 0, 0, 0⟩
      [[25]] rfl (by decide) hFin (by norm_num) (by norm_num) (by norm_num)⟩
